import Mathlib

/-!
Shallow embedding of the `wayfinder` swap-routing core.

The Rust sources embedded here are `src/ids.rs`, `src/pool.rs`, `src/world.rs`,
`src/engine.rs` and `src/graph.rs`.  Identifier newtypes (`TokenId(u16)`,
`PoolId(u32)`) are modelled as `Nat`, since the code uses them only for
equality and hashing.  `alloy_primitives::U256` amounts are modelled as `Nat`;
the only place where the 256-bit width could matter is the credit
`*world.holdings.entry(to).or_default() += out`, which is modelled as wrapping
addition modulo `2 ^ 256`.  `HashMap` is modelled as an association list with
insert-or-replace semantics; fresh keys go to the back of the list.  A fatal
failure (`panic!` / `expect` / `assert!`) is modelled as `Except.error`
carrying the error kind together with the value of the mutable state at the
moment of the abort, so that partial mutation before a panic stays observable.
-/

namespace Wayfinder

/-- Decidable equality for `Except`, so that concrete engine runs can be
checked by `decide`. -/
instance {ε α : Type} [DecidableEq ε] [DecidableEq α] : DecidableEq (Except ε α) := fun x y =>
  match x, y with
  | .error a, .error b => if h : a = b then .isTrue (by rw [h]) else .isFalse (by simp [h])
  | .ok a, .ok b => if h : a = b then .isTrue (by rw [h]) else .isFalse (by simp [h])
  | .error _, .ok _ => .isFalse (by simp)
  | .ok _, .error _ => .isFalse (by simp)

/-- Association-list lookup, modelling `HashMap::get`. -/
def alookup {κ β : Type} [DecidableEq κ] (k : κ) : List (κ × β) → Option β
  | [] => none
  | (k', v) :: rest => if k' = k then some v else alookup k rest

/-- Association-list insert-or-replace, modelling `HashMap::insert` and
in-place mutation through a `&mut` entry; a fresh key is appended at the
back. -/
def ainsert {κ β : Type} [DecidableEq κ] (k : κ) (v : β) : List (κ × β) → List (κ × β)
  | [] => [(k, v)]
  | (k', v') :: rest => if k' = k then (k, v) :: rest else (k', v') :: ainsert k v rest

/-- Positional lookup in a node arena, modelling `petgraph` node indexing. -/
def nget {α : Type} : List α → Nat → Option α
  | [], _ => none
  | x :: _, 0 => some x
  | _ :: xs, n + 1 => nget xs n

/-- Rust `src/ids.rs`: `TokenId` (only equality/hash is used, so `Nat` suffices). -/
abbrev TokenId := Nat

/-- Rust `src/ids.rs`: `PoolId`. -/
abbrev PoolId := Nat

/-- Rust `src/engine.rs`: `Step` — the realized record of one hop. -/
structure Step where
  pool : PoolId
  from_ : TokenId
  to_ : TokenId
  amt_in : Nat
  amt_out : Nat
deriving DecidableEq

/-- Rust `src/engine.rs`: `Path` — the ordered sequence of realized steps. -/
structure Path where
  steps : List Step
deriving DecidableEq

/-- Rust `src/pool.rs`: the `Pool` trait.  `swap` takes `&mut State` in Rust, so it
is embedded in state-passing style, returning the output amount together with
the updated state. -/
structure Pool (S : Type) where
  id : PoolId
  supports : TokenId → TokenId → Bool
  swap : S → TokenId → TokenId → Nat → Nat × S

/-- Rust `src/world.rs`: `World` — per-asset holdings and per-pool internal state. -/
structure World (S : Type) where
  holdings : List (TokenId × Nat)
  pool_states : List (PoolId × S)
deriving DecidableEq

/-- The fatal failures of `src/engine.rs` (`expect` and `assert!` panics). -/
inductive EngineError where
  | emptyPath
  | pathDiscontinuity (expected : TokenId)
  | missingPoolImpl
  | missingPoolState
deriving DecidableEq

/-- Rust `world.holdings.entry(t).or_default()`: make sure the key is present,
inserting a zero balance when it is absent. -/
def entryOrDefault (m : List (TokenId × Nat)) (t : TokenId) : List (TokenId × Nat) :=
  match alookup t m with
  | some _ => m
  | none => m ++ [(t, 0)]

/-- The balance of `t` as `apply_swap` reads it: an absent entry reads as
zero. -/
def holdingGet {S : Type} (w : World S) (t : TokenId) : Nat :=
  (alookup t w.holdings).getD 0

/-- Rust `src/engine.rs`: `Engine::apply_swap`.  The engine's pool collection
(`&HashMap<PoolId, P>`) is the `pools` argument.  The `debug_assert!` on
`pool.supports` is compiled out of release builds and is not a guaranteed
failure, so it is not modelled as an error path.  Errors carry the `World` as
it stands at the moment of the panic. -/
def apply_swap {S : Type} (pools : List (PoolId × Pool S)) (world : World S)
    (pid : PoolId) (from_ to_ : TokenId) (amt_in : Nat) :
    Except (EngineError × World S) (Nat × World S) :=
  match alookup pid pools with
  | none => .error (.missingPoolImpl, world)
  | some pool =>
    let holdings0 := entryOrDefault world.holdings from_
    let from_bal := (alookup from_ holdings0).getD 0
    if from_bal = 0 then
      .ok (0, { world with holdings := holdings0 })
    else
      let use_in := min from_bal amt_in
      let world1 : World S := { world with holdings := ainsert from_ (from_bal - use_in) holdings0 }
      match alookup pid world1.pool_states with
      | none => .error (.missingPoolState, world1)
      | some st =>
        let so := pool.swap st from_ to_ use_in
        let world2 : World S := { world1 with pool_states := ainsert pid so.2 world1.pool_states }
        let holdings1 := entryOrDefault world2.holdings to_
        let to_bal := (alookup to_ holdings1).getD 0
        .ok (so.1, { world2 with holdings := ainsert to_ ((to_bal + so.1) % (2 ^ 256)) holdings1 })

/-- One entry of the `path_spec` slice of `execute_path`:
`(PoolId, TokenId, TokenId, U256)`. -/
abbrev HopSpec := PoolId × TokenId × TokenId × Nat

/-- The declared input asset of a hop specification. -/
def hopFrom (h : HopSpec) : TokenId := h.2.1

/-- The declared output asset of a hop specification. -/
def hopTo (h : HopSpec) : TokenId := h.2.2.1

/-- The loop body of `execute_path`: runs the hops in order, threading the
`last_token` continuity variable, and aborts on the first discontinuity
(`assert_eq!(from, last_token)`) or the first `apply_swap` panic. -/
def exec_go {S : Type} (pools : List (PoolId × Pool S)) :
    World S → List HopSpec → TokenId → Except (EngineError × World S) (List Step × World S)
  | world, [], _ => .ok ([], world)
  | world, (pid, from_, to_, amt_in) :: rest, last_token =>
    if from_ = last_token then
      match apply_swap pools world pid from_ to_ amt_in with
      | .error e => .error e
      | .ok (out, world') =>
        match exec_go pools world' rest to_ with
        | .error e => .error e
        | .ok (steps, world'') =>
          .ok (⟨pid, from_, to_, amt_in, out⟩ :: steps, world'')
    else .error (.pathDiscontinuity last_token, world)

/-- Rust `src/engine.rs`: `Engine::execute_path`.  `last_token` starts at the first
hop's own input asset, so the first hop is unconstrained by a predecessor. -/
def execute_path {S : Type} (pools : List (PoolId × Pool S)) (world : World S)
    (path_spec : List HopSpec) : Except (EngineError × World S) (Path × World S) :=
  match path_spec with
  | [] => .error (.emptyPath, world)
  | first :: _ =>
    match exec_go pools world path_spec (hopFrom first) with
    | .error e => .error e
    | .ok (steps, world') => .ok (⟨steps⟩, world')

/-- The declared specification recorded in a realized step. -/
def stepSpec (s : Step) : HopSpec := (s.pool, s.from_, s.to_, s.amt_in)

/-- The continuity variable after traversing a hop list: the declared output
asset of the last hop (or the start token for an empty list). -/
def chainLast : TokenId → List HopSpec → TokenId
  | last, [] => last
  | _, (_, _, to_, _) :: rest => chainLast to_ rest

/-- Holds when `steps` realizes `hops` from `w` to `wfin`: hop by hop, `apply_swap`
returned exactly the recorded output amount and produced the next world. -/
def stepsRealize {S : Type} (pools : List (PoolId × Pool S)) :
    World S → List HopSpec → List Step → World S → Prop
  | w, [], [], wfin => w = wfin
  | w, (pid, from_, to_, amt_in) :: hops, s :: steps, wfin =>
    ∃ w1, apply_swap pools w pid from_ to_ amt_in = .ok (s.amt_out, w1) ∧
      stepsRealize pools w1 hops steps wfin
  | _, _ :: _, [], _ => False
  | _, [], _ :: _, _ => False

/-- An amount-less hop `(pool, input asset, output asset)` as consumed by the
simulation entry point described in §4.3 of the specification. -/
abbrev Hop := PoolId × TokenId × TokenId

/-- Continuity of a declared route relative to a running expected input
asset. -/
def simChainOk : TokenId → List Hop → Bool
  | _, [] => true
  | last, (_, from_, to_) :: rest => decide (from_ = last) && simChainOk to_ rest

/-- Modelled from the spec: the loop body of `simulateChained` (§4.3), whose
implementation is not among the provided source files.  It threads the
per-call scratch mapping from pool identifier to a cloned pool state, seeded
lazily from `world.pool_states` on first reference; `world` itself is only
ever read.  A zero flowing amount records a zero-output step without invoking
the pool's pricing function, and every hop after the first takes exactly the
previous hop's realized output, uncapped. -/
def sim_go {S : Type} (pools : List (PoolId × Pool S)) (world : World S) :
    List (PoolId × S) → List Hop → TokenId → Nat →
    Except (EngineError × World S) (List Step × World S)
  | _, [], _, _ => .ok ([], world)
  | scratch, (pid, from_, to_) :: rest, last_token, amt =>
    if from_ = last_token then
      if amt = 0 then
        match sim_go pools world scratch rest to_ 0 with
        | .error e => .error e
        | .ok (steps, w) => .ok (⟨pid, from_, to_, amt, 0⟩ :: steps, w)
      else
        match alookup pid pools with
        | none => .error (.missingPoolImpl, world)
        | some pool =>
          match (match alookup pid scratch with
                 | some st => some st
                 | none => alookup pid world.pool_states) with
          | none => .error (.missingPoolState, world)
          | some st =>
            let so := pool.swap st from_ to_ amt
            match sim_go pools world (ainsert pid so.2 scratch) rest to_ so.1 with
            | .error e => .error e
            | .ok (steps, w) => .ok (⟨pid, from_, to_, amt, so.1⟩ :: steps, w)
    else .error (.pathDiscontinuity last_token, world)

/-- Modelled from the spec: `simulateChained` (§4.3), whose implementation is
not among the provided source files.  Non-emptiness and continuity checks are
the same as in `execute_path`; the first hop's input is `firstInputAmount`,
capped at the current holding of the starting asset when `capFirstHop` is
set; all pricing runs against the per-call scratch copies, never `world`. -/
def simulate_chained {S : Type} (pools : List (PoolId × Pool S)) (world : World S)
    (hops : List Hop) (firstInputAmount : Nat) (capFirstHop : Bool) :
    Except (EngineError × World S) (Path × World S) :=
  match hops with
  | [] => .error (.emptyPath, world)
  | (_, f0, _) :: _ =>
    let amt0 := if capFirstHop
      then min firstInputAmount ((alookup f0 world.holdings).getD 0)
      else firstInputAmount
    match sim_go pools world [] hops f0 amt0 with
    | .error e => .error e
    | .ok (steps, w) => .ok (⟨steps⟩, w)

/-- Rust `src/graph.rs`: `NodeKind`. -/
inductive NodeKind where
  | Token (t : TokenId)
  | Pool (p : PoolId)
deriving DecidableEq

/-- Rust `src/graph.rs`: `AMMGraph`.  The `petgraph` `StableDiGraph` is flattened
into a node arena (`nodes`, indexed positionally) and an edge list in
insertion order; `edges` may contain parallel edges, exactly as the stable
graph does. -/
structure AMMGraph where
  nodes : List NodeKind
  edges : List (Nat × Nat)
  token_idx : List (TokenId × Nat)
  pool_idx : List (PoolId × Nat)
deriving DecidableEq

/-- Rust `AMMGraph::new()`. -/
def AMMGraph.new : AMMGraph := ⟨[], [], [], []⟩

/-- Rust `src/graph.rs`: `add_token` — idempotent node insertion through the
`token_idx` map; returns the node index together with the updated graph. -/
def add_token (g : AMMGraph) (t : TokenId) : Nat × AMMGraph :=
  match alookup t g.token_idx with
  | some ix => (ix, g)
  | none =>
    (g.nodes.length,
     { g with nodes := g.nodes ++ [NodeKind.Token t],
              token_idx := g.token_idx ++ [(t, g.nodes.length)] })

/-- Rust `src/graph.rs`: `add_pool`. -/
def add_pool (g : AMMGraph) (p : PoolId) : Nat × AMMGraph :=
  match alookup p g.pool_idx with
  | some ix => (ix, g)
  | none =>
    (g.nodes.length,
     { g with nodes := g.nodes ++ [NodeKind.Pool p],
              pool_idx := g.pool_idx ++ [(p, g.nodes.length)] })

/-- Rust `src/graph.rs`: `connect_token_to_pool` — inserts the edge with the raw
`add_edge`, which always appends (parallel edges allowed). -/
def connect_token_to_pool (g : AMMGraph) (t : TokenId) (p : PoolId) : AMMGraph :=
  let r1 := add_token g t
  let r2 := add_pool r1.2 p
  { r2.2 with edges := r2.2.edges ++ [(r1.1, r2.1)] }

/-- Rust `src/graph.rs`: `connect_pool_to_token`. -/
def connect_pool_to_token (g : AMMGraph) (p : PoolId) (t : TokenId) : AMMGraph :=
  let r1 := add_pool g p
  let r2 := add_token r1.2 t
  { r2.2 with edges := r2.2.edges ++ [(r1.1, r2.1)] }

/-- First index of the edge `(a, b)` in the edge list, starting the count at
`i`. -/
def findEdgeAux : List (Nat × Nat) → Nat → Nat → Nat → Option Nat
  | [], _, _, _ => none
  | e :: rest, a, b, i => if e = (a, b) then some i else findEdgeAux rest a b (i + 1)

/-- Model of the `petgraph` `find_edge` call on the embedded edge list. -/
def find_edge (g : AMMGraph) (a b : Nat) : Option Nat :=
  findEdgeAux g.edges a b 0

/-- Rust `src/graph.rs`: `add_edge_unique` — inserts only when `find_edge` misses. -/
def add_edge_unique (g : AMMGraph) (a b : Nat) : AMMGraph :=
  match find_edge g a b with
  | some _ => g
  | none => { g with edges := g.edges ++ [(a, b)] }

/-- Rust `src/graph.rs`: `connect_bidirectional_pair` — the four deduplicated
edges A→pool, pool→B, B→pool, pool→A. -/
def connect_bidirectional_pair (g : AMMGraph) (p : PoolId) (a b : TokenId) : AMMGraph :=
  let ra := add_token g a
  let rb := add_token ra.2 b
  let rp := add_pool rb.2 p
  let g1 := add_edge_unique rp.2 ra.1 rp.1
  let g2 := add_edge_unique g1 rp.1 rb.1
  let g3 := add_edge_unique g2 rb.1 rp.1
  add_edge_unique g3 rp.1 ra.1

/-- The fatal failure of the graph queries: `HashMap`'s `Index` (`self.token_idx[&t]`)
panics when the key is absent. -/
inductive GraphError where
  | indexNotFound
deriving DecidableEq

/-- Is node `n` a pool node? (`matches!(self.g[n], NodeKind::Pool(_))`). -/
def isPoolNode (g : AMMGraph) (n : Nat) : Bool :=
  match nget g.nodes n with
  | some (NodeKind.Pool _) => true
  | _ => false

/-- Is node `n` a token node? -/
def isTokenNode (g : AMMGraph) (n : Nat) : Bool :=
  match nget g.nodes n with
  | some (NodeKind.Token _) => true
  | _ => false

/-- The targets of the outgoing edges of node `n`
(`neighbors_directed(n, Direction::Outgoing)`; neighbor order is not
significant for any property proved here). -/
def outNeighbors (g : AMMGraph) (n : Nat) : List Nat :=
  (g.edges.filter (fun e => e.1 = n)).map (fun e => e.2)

/-- Rust `src/graph.rs`: `pools_accepting` — indexes `token_idx` (panicking on an
unknown token), then filters the outgoing neighbors down to pool nodes. -/
def pools_accepting (g : AMMGraph) (t : TokenId) : Except GraphError (List Nat) :=
  match alookup t g.token_idx with
  | none => .error .indexNotFound
  | some tix => .ok ((outNeighbors g tix).filter (fun n => isPoolNode g n))

/-- Rust `src/graph.rs`: `tokens_emitted_by`. -/
def tokens_emitted_by (g : AMMGraph) (p : PoolId) : Except GraphError (List Nat) :=
  match alookup p g.pool_idx with
  | none => .error .indexNotFound
  | some pix => .ok ((outNeighbors g pix).filter (fun n => isTokenNode g n))

/-- The public insertion operations of `AMMGraph`, for quantifying over every
graph reachable through the insertion API. -/
inductive GraphOp where
  | opAddToken (t : TokenId)
  | opAddPool (p : PoolId)
  | opConnectTokenToPool (t : TokenId) (p : PoolId)
  | opConnectPoolToToken (p : PoolId) (t : TokenId)
  | opConnectBidirectionalPair (p : PoolId) (a b : TokenId)
deriving DecidableEq

/-- Apply one insertion operation. -/
def applyOp (g : AMMGraph) : GraphOp → AMMGraph
  | .opAddToken t => (add_token g t).2
  | .opAddPool p => (add_pool g p).2
  | .opConnectTokenToPool t p => connect_token_to_pool g t p
  | .opConnectPoolToToken p t => connect_pool_to_token g p t
  | .opConnectBidirectionalPair p a b => connect_bidirectional_pair g p a b

/-- The graph built from the empty graph by a sequence of insertion
operations. -/
def buildGraph (ops : List GraphOp) : AMMGraph :=
  ops.foldl applyOp AMMGraph.new

/-- The operations that only ever insert edges through the deduplicating
`add_edge_unique`. -/
def opDedup : GraphOp → Bool
  | .opConnectTokenToPool _ _ => false
  | .opConnectPoolToToken _ _ => false
  | _ => true

/-- Index maps of the graph are consistent: every `token_idx` / `pool_idx`
entry points at a node of the right kind carrying that identifier, and every
edge endpoint is a live node index. -/
def wfIdx (g : AMMGraph) : Bool :=
  g.token_idx.all (fun e => match nget g.nodes e.2 with
    | some (NodeKind.Token t') => decide (t' = e.1)
    | _ => false) &&
  g.pool_idx.all (fun e => match nget g.nodes e.2 with
    | some (NodeKind.Pool p') => decide (p' = e.1)
    | _ => false) &&
  g.edges.all (fun e => decide (e.1 < g.nodes.length) && decide (e.2 < g.nodes.length))

/-- Is there an asset→pool edge between the nodes of `t` and `p`? (`false`
when either identifier has no node yet.) -/
def tokenPoolEdge (g : AMMGraph) (t : TokenId) (p : PoolId) : Bool :=
  match alookup t g.token_idx, alookup p g.pool_idx with
  | some tix, some pix => (find_edge g tix pix).isSome
  | _, _ => false

/-- Is there a pool→asset edge between the nodes of `p` and `t`? -/
def poolTokenEdge (g : AMMGraph) (p : PoolId) (t : TokenId) : Bool :=
  match alookup p g.pool_idx, alookup t g.token_idx with
  | some pix, some tix => (find_edge g pix tix).isSome
  | _, _ => false

/-- A proportional-fee pool over the unit state, mirroring the `FeePool` test
implementation of `src/engine.rs` (output = `amt_in * (10000 - fee_bps) / 10000`). -/
def feePool (pid : PoolId) (fee_bps : Nat) : Pool Unit :=
  { id := pid
    supports := fun _ _ => true
    swap := fun st _ _ amt_in => ((amt_in * (10000 - fee_bps)) / 10000, st) }

/-- The pool collection of the `two_hop_trace_and_balances` test: a 1%-fee
pool `10` and a 2%-fee pool `11`. -/
def exPools : List (PoolId × Pool Unit) := [(10, feePool 10 100), (11, feePool 11 200)]

/-- The starting world of the two-hop test: 1,000,000 of asset `1`, seeded
states for pools `10` and `11`. -/
def exWorld : World Unit := ⟨[(1, 1000000)], [(10, ()), (11, ())]⟩

/-- A world with no holdings and no pool states. -/
def exWorldEmpty : World Unit := ⟨[], []⟩

/-! Supporting lemmas about the association-list and arena primitives. -/

theorem alookup_ainsert_self {κ β : Type} [DecidableEq κ] (k : κ) (v : β)
    (m : List (κ × β)) : alookup k (ainsert k v m) = some v := by
  induction m with
  | nil => simp [ainsert, alookup]
  | cons e rest ih =>
    obtain ⟨k', v'⟩ := e
    by_cases h : k' = k
    · simp [ainsert, alookup, h]
    · simp [ainsert, alookup, h, ih]

theorem alookup_ainsert_ne {κ β : Type} [DecidableEq κ] {k k' : κ} (v : β)
    (m : List (κ × β)) (h : k' ≠ k) : alookup k' (ainsert k v m) = alookup k' m := by
  induction m with
  | nil => simp [ainsert, alookup, Ne.symm h]
  | cons e rest ih =>
    obtain ⟨a, b⟩ := e
    by_cases ha : a = k
    · subst ha
      simp [ainsert, alookup, Ne.symm h]
    · simp only [ainsert, if_neg ha]
      by_cases hb : a = k'
      · simp [alookup, hb]
      · simp [alookup, hb, ih]

theorem alookup_append_some {κ β : Type} [DecidableEq κ] {k : κ} {v : β}
    {l1 : List (κ × β)} (l2 : List (κ × β)) (h : alookup k l1 = some v) :
    alookup k (l1 ++ l2) = some v := by
  induction l1 with
  | nil => simp [alookup] at h
  | cons e rest ih =>
    obtain ⟨a, b⟩ := e
    by_cases ha : a = k
    · simp only [alookup, if_pos ha] at h
      simp [alookup, ha, h]
    · simp only [alookup, if_neg ha] at h
      simp [alookup, ha, ih h]

theorem alookup_append_none {κ β : Type} [DecidableEq κ] {k : κ}
    {l1 : List (κ × β)} (l2 : List (κ × β)) (h : alookup k l1 = none) :
    alookup k (l1 ++ l2) = alookup k l2 := by
  induction l1 with
  | nil => simp
  | cons e rest ih =>
    obtain ⟨a, b⟩ := e
    by_cases ha : a = k
    · simp [alookup, ha] at h
    · simp only [alookup, if_neg ha] at h
      simp [alookup, ha, ih h]

theorem alookup_mem {κ β : Type} [DecidableEq κ] {k : κ} {v : β}
    {l : List (κ × β)} (h : alookup k l = some v) : (k, v) ∈ l := by
  induction l with
  | nil => simp [alookup] at h
  | cons e rest ih =>
    obtain ⟨a, b⟩ := e
    by_cases ha : a = k
    · simp only [alookup, if_pos ha] at h
      subst ha
      obtain rfl : b = v := by injection h
      exact List.mem_cons_self _ _
    · simp only [alookup, if_neg ha] at h
      exact List.mem_cons_of_mem _ (ih h)

theorem alookup_append_elim {κ β : Type} [DecidableEq κ] {k : κ} {v : β}
    {l1 l2 : List (κ × β)} (h : alookup k (l1 ++ l2) = some v) :
    alookup k l1 = some v ∨ (alookup k l1 = none ∧ alookup k l2 = some v) := by
  cases h1 : alookup k l1 with
  | some w =>
    left
    rw [alookup_append_some l2 h1] at h
    exact h
  | none =>
    right
    rw [alookup_append_none l2 h1] at h
    exact ⟨rfl, h⟩

theorem alookup_entryOrDefault_self (m : List (TokenId × Nat)) (t : TokenId) :
    alookup t (entryOrDefault m t) = some ((alookup t m).getD 0) := by
  cases h : alookup t m with
  | some v => simp [entryOrDefault, h]
  | none =>
    simp only [entryOrDefault, h]
    rw [alookup_append_none _ h]
    simp [alookup]

theorem alookup_entryOrDefault_of_some {m : List (TokenId × Nat)} {k : TokenId} {v : Nat}
    (t : TokenId) (h : alookup k m = some v) : alookup k (entryOrDefault m t) = some v := by
  cases ht : alookup t m with
  | some w => simp [entryOrDefault, ht, h]
  | none =>
    simp only [entryOrDefault, ht]
    exact alookup_append_some _ h

theorem nget_lt_length {α : Type} {l : List α} {n : Nat} {x : α}
    (h : nget l n = some x) : n < l.length := by
  induction l generalizing n with
  | nil => simp [nget] at h
  | cons a rest ih =>
    cases n with
    | zero => simp
    | succ m =>
      simp only [nget] at h
      simpa using Nat.succ_lt_succ (ih h)

theorem nget_append_left {α : Type} {l : List α} {n : Nat} (l2 : List α)
    (h : n < l.length) : nget (l ++ l2) n = nget l n := by
  induction l generalizing n with
  | nil => simp at h
  | cons a rest ih =>
    cases n with
    | zero => rfl
    | succ m =>
      simp only [List.cons_append, nget]
      exact ih (by simpa using Nat.lt_of_succ_lt_succ h)

theorem nget_append_self {α : Type} (l : List α) (x : α) :
    nget (l ++ [x]) l.length = some x := by
  induction l with
  | nil => rfl
  | cons a rest ih => simpa [nget] using ih

theorem findEdgeAux_none_iff (es : List (Nat × Nat)) (a b : Nat) :
    ∀ i, findEdgeAux es a b i = none ↔ (a, b) ∉ es := by
  induction es with
  | nil => simp [findEdgeAux]
  | cons e rest ih =>
    intro i
    by_cases h : e = (a, b)
    · simp [findEdgeAux, h]
    · have h' : ¬(a, b) = e := fun hk => h hk.symm
      simp [findEdgeAux, h, ih, h']

theorem find_edge_none_iff (g : AMMGraph) (a b : Nat) :
    find_edge g a b = none ↔ (a, b) ∉ g.edges :=
  findEdgeAux_none_iff g.edges a b 0

theorem add_edge_unique_of_mem {g : AMMGraph} {a b : Nat}
    (h : (a, b) ∈ g.edges) : add_edge_unique g a b = g := by
  cases hf : find_edge g a b with
  | none => exact absurd h ((find_edge_none_iff g a b).mp hf)
  | some i => simp [add_edge_unique, hf]

theorem add_edge_unique_of_not_mem {g : AMMGraph} {a b : Nat}
    (h : (a, b) ∉ g.edges) :
    add_edge_unique g a b = { g with edges := g.edges ++ [(a, b)] } := by
  have hf : find_edge g a b = none := (find_edge_none_iff g a b).mpr h
  simp [add_edge_unique, hf]

theorem add_edge_unique_nodes (g : AMMGraph) (a b : Nat) :
    (add_edge_unique g a b).nodes = g.nodes := by
  cases hf : find_edge g a b <;> simp [add_edge_unique, hf]

theorem add_edge_unique_token_idx (g : AMMGraph) (a b : Nat) :
    (add_edge_unique g a b).token_idx = g.token_idx := by
  cases hf : find_edge g a b <;> simp [add_edge_unique, hf]

theorem add_edge_unique_pool_idx (g : AMMGraph) (a b : Nat) :
    (add_edge_unique g a b).pool_idx = g.pool_idx := by
  cases hf : find_edge g a b <;> simp [add_edge_unique, hf]

/-! Well-formedness of the index maps, and how the node-insertion operations
preserve it. -/

/-- Every `token_idx` entry points at the token node carrying that id. -/
def WfT (g : AMMGraph) : Prop :=
  ∀ t ix, alookup t g.token_idx = some ix → nget g.nodes ix = some (NodeKind.Token t)

/-- Every `pool_idx` entry points at the pool node carrying that id. -/
def WfP (g : AMMGraph) : Prop :=
  ∀ p ix, alookup p g.pool_idx = some ix → nget g.nodes ix = some (NodeKind.Pool p)

/-- Every edge endpoint is a live node index. -/
def WfE (g : AMMGraph) : Prop :=
  ∀ e ∈ g.edges, e.1 < g.nodes.length ∧ e.2 < g.nodes.length

theorem wfIdx_elim {g : AMMGraph} (h : wfIdx g = true) : WfT g ∧ WfP g ∧ WfE g := by
  unfold wfIdx at h
  rw [Bool.and_eq_true, Bool.and_eq_true] at h
  obtain ⟨⟨hT, hP⟩, hE⟩ := h
  rw [List.all_eq_true] at hT hP hE
  refine ⟨?_, ?_, ?_⟩
  · intro t ix hl
    have := hT _ (alookup_mem hl)
    cases hn : nget g.nodes ix with
    | none => rw [hn] at this; simp at this
    | some nk =>
      rw [hn] at this
      cases nk with
      | Token t' => simp at this; rw [this]
      | Pool p' => simp at this
  · intro p ix hl
    have := hP _ (alookup_mem hl)
    cases hn : nget g.nodes ix with
    | none => rw [hn] at this; simp at this
    | some nk =>
      rw [hn] at this
      cases nk with
      | Token t' => simp at this
      | Pool p' => simp at this; rw [this]
  · intro e he
    have := hE _ he
    rw [Bool.and_eq_true, decide_eq_true_eq, decide_eq_true_eq] at this
    exact this

theorem add_token_present {g : AMMGraph} {t : TokenId} {ix : Nat}
    (h : alookup t g.token_idx = some ix) : add_token g t = (ix, g) := by
  simp [add_token, h]

theorem add_token_absent {g : AMMGraph} {t : TokenId}
    (h : alookup t g.token_idx = none) :
    add_token g t = (g.nodes.length,
      { g with nodes := g.nodes ++ [NodeKind.Token t],
               token_idx := g.token_idx ++ [(t, g.nodes.length)] }) := by
  simp [add_token, h]

theorem add_pool_present {g : AMMGraph} {p : PoolId} {ix : Nat}
    (h : alookup p g.pool_idx = some ix) : add_pool g p = (ix, g) := by
  simp [add_pool, h]

theorem add_pool_absent {g : AMMGraph} {p : PoolId}
    (h : alookup p g.pool_idx = none) :
    add_pool g p = (g.nodes.length,
      { g with nodes := g.nodes ++ [NodeKind.Pool p],
               pool_idx := g.pool_idx ++ [(p, g.nodes.length)] }) := by
  simp [add_pool, h]

theorem add_token_edges (g : AMMGraph) (t : TokenId) :
    (add_token g t).2.edges = g.edges := by
  cases h : alookup t g.token_idx with
  | some ix => rw [add_token_present h]
  | none => rw [add_token_absent h]

theorem add_token_pool_idx (g : AMMGraph) (t : TokenId) :
    (add_token g t).2.pool_idx = g.pool_idx := by
  cases h : alookup t g.token_idx with
  | some ix => rw [add_token_present h]
  | none => rw [add_token_absent h]

theorem add_pool_edges (g : AMMGraph) (p : PoolId) :
    (add_pool g p).2.edges = g.edges := by
  cases h : alookup p g.pool_idx with
  | some ix => rw [add_pool_present h]
  | none => rw [add_pool_absent h]

theorem add_pool_token_idx (g : AMMGraph) (p : PoolId) :
    (add_pool g p).2.token_idx = g.token_idx := by
  cases h : alookup p g.pool_idx with
  | some ix => rw [add_pool_present h]
  | none => rw [add_pool_absent h]

theorem add_token_nodes_le (g : AMMGraph) (t : TokenId) :
    g.nodes.length ≤ (add_token g t).2.nodes.length := by
  cases h : alookup t g.token_idx with
  | some ix => rw [add_token_present h]
  | none => rw [add_token_absent h]; simp

theorem add_pool_nodes_le (g : AMMGraph) (p : PoolId) :
    g.nodes.length ≤ (add_pool g p).2.nodes.length := by
  cases h : alookup p g.pool_idx with
  | some ix => rw [add_pool_present h]
  | none => rw [add_pool_absent h]; simp

theorem add_token_nget (g : AMMGraph) (t : TokenId) {n : Nat}
    (hn : n < g.nodes.length) : nget (add_token g t).2.nodes n = nget g.nodes n := by
  cases h : alookup t g.token_idx with
  | some ix => rw [add_token_present h]
  | none => rw [add_token_absent h]; exact nget_append_left _ hn

theorem add_pool_nget (g : AMMGraph) (p : PoolId) {n : Nat}
    (hn : n < g.nodes.length) : nget (add_pool g p).2.nodes n = nget g.nodes n := by
  cases h : alookup p g.pool_idx with
  | some ix => rw [add_pool_present h]
  | none => rw [add_pool_absent h]; exact nget_append_left _ hn

theorem add_token_lookup_self (g : AMMGraph) (t : TokenId) :
    alookup t (add_token g t).2.token_idx = some (add_token g t).1 := by
  cases h : alookup t g.token_idx with
  | some ix => rw [add_token_present h]; exact h
  | none =>
    rw [add_token_absent h]
    simp only
    rw [alookup_append_none _ h]
    simp [alookup]

theorem add_pool_lookup_self (g : AMMGraph) (p : PoolId) :
    alookup p (add_pool g p).2.pool_idx = some (add_pool g p).1 := by
  cases h : alookup p g.pool_idx with
  | some ix => rw [add_pool_present h]; exact h
  | none =>
    rw [add_pool_absent h]
    simp only
    rw [alookup_append_none _ h]
    simp [alookup]

theorem add_token_lookup_pres (g : AMMGraph) (t : TokenId) {t' : TokenId} {j : Nat}
    (h : alookup t' g.token_idx = some j) :
    alookup t' (add_token g t).2.token_idx = some j := by
  cases ht : alookup t g.token_idx with
  | some ix => rw [add_token_present ht]; exact h
  | none => rw [add_token_absent ht]; exact alookup_append_some _ h

theorem add_pool_lookup_pres (g : AMMGraph) (p : PoolId) {p' : PoolId} {j : Nat}
    (h : alookup p' g.pool_idx = some j) :
    alookup p' (add_pool g p).2.pool_idx = some j := by
  cases hp : alookup p g.pool_idx with
  | some ix => rw [add_pool_present hp]; exact h
  | none => rw [add_pool_absent hp]; exact alookup_append_some _ h

theorem add_token_lookup_back (g : AMMGraph) (t : TokenId) {t' : TokenId} {j : Nat}
    (hne : t' ≠ t) (h : alookup t' (add_token g t).2.token_idx = some j) :
    alookup t' g.token_idx = some j := by
  cases ht : alookup t g.token_idx with
  | some ix => rw [add_token_present ht] at h; exact h
  | none =>
    rw [add_token_absent ht] at h
    simp only at h
    rcases alookup_append_elim h with h1 | ⟨h1, h2⟩
    · exact h1
    · simp [alookup, hne, Ne.symm hne] at h2

theorem add_token_fresh_or_old (g : AMMGraph) (t : TokenId) :
    alookup t g.token_idx = some (add_token g t).1 ∨
      (alookup t g.token_idx = none ∧ (add_token g t).1 = g.nodes.length) := by
  cases h : alookup t g.token_idx with
  | some ix => rw [add_token_present h]; exact Or.inl rfl
  | none => rw [add_token_absent h]; exact Or.inr ⟨rfl, rfl⟩

theorem add_pool_fresh_or_old (g : AMMGraph) (p : PoolId) :
    alookup p g.pool_idx = some (add_pool g p).1 ∨
      (alookup p g.pool_idx = none ∧ (add_pool g p).1 = g.nodes.length) := by
  cases h : alookup p g.pool_idx with
  | some ix => rw [add_pool_present h]; exact Or.inl rfl
  | none => rw [add_pool_absent h]; exact Or.inr ⟨rfl, rfl⟩

theorem add_token_kind {g : AMMGraph} (hwf : WfT g) (t : TokenId) :
    nget (add_token g t).2.nodes (add_token g t).1 = some (NodeKind.Token t) := by
  cases h : alookup t g.token_idx with
  | some ix => rw [add_token_present h]; exact hwf t ix h
  | none => rw [add_token_absent h]; exact nget_append_self _ _

theorem add_pool_kind {g : AMMGraph} (hwf : WfP g) (p : PoolId) :
    nget (add_pool g p).2.nodes (add_pool g p).1 = some (NodeKind.Pool p) := by
  cases h : alookup p g.pool_idx with
  | some ix => rw [add_pool_present h]; exact hwf p ix h
  | none => rw [add_pool_absent h]; exact nget_append_self _ _

theorem add_token_wf {g : AMMGraph} (hT : WfT g) (hP : WfP g) (hE : WfE g)
    (t : TokenId) :
    WfT (add_token g t).2 ∧ WfP (add_token g t).2 ∧ WfE (add_token g t).2 := by
  cases h : alookup t g.token_idx with
  | some ix => rw [add_token_present h]; exact ⟨hT, hP, hE⟩
  | none =>
    rw [add_token_absent h]
    refine ⟨?_, ?_, ?_⟩
    · intro t' ix hl
      simp only at hl
      rcases alookup_append_elim hl with h1 | ⟨h1, h2⟩
      · have := hT t' ix h1
        have hlt := nget_lt_length this
        simp only
        rw [nget_append_left _ hlt]
        exact this
      · simp only [alookup] at h2
        by_cases ht' : t = t'
        · rw [if_pos ht'] at h2
          obtain rfl : g.nodes.length = ix := by injection h2
          subst ht'
          simp only
          exact nget_append_self _ _
        · rw [if_neg ht'] at h2
          simp [alookup] at h2
    · intro p ix hl
      simp only at hl
      have := hP p ix hl
      have hlt := nget_lt_length this
      simp only
      rw [nget_append_left _ hlt]
      exact this
    · intro e he
      simp only at he
      have := hE e he
      simp only [List.length_append, List.length_cons, List.length_nil]
      omega

theorem add_pool_wf {g : AMMGraph} (hT : WfT g) (hP : WfP g) (hE : WfE g)
    (p : PoolId) :
    WfT (add_pool g p).2 ∧ WfP (add_pool g p).2 ∧ WfE (add_pool g p).2 := by
  cases h : alookup p g.pool_idx with
  | some ix => rw [add_pool_present h]; exact ⟨hT, hP, hE⟩
  | none =>
    rw [add_pool_absent h]
    refine ⟨?_, ?_, ?_⟩
    · intro t ix hl
      simp only at hl
      have := hT t ix hl
      have hlt := nget_lt_length this
      simp only
      rw [nget_append_left _ hlt]
      exact this
    · intro p' ix hl
      simp only at hl
      rcases alookup_append_elim hl with h1 | ⟨h1, h2⟩
      · have := hP p' ix h1
        have hlt := nget_lt_length this
        simp only
        rw [nget_append_left _ hlt]
        exact this
      · simp only [alookup] at h2
        by_cases hp' : p = p'
        · rw [if_pos hp'] at h2
          obtain rfl : g.nodes.length = ix := by injection h2
          subst hp'
          simp only
          exact nget_append_self _ _
        · rw [if_neg hp'] at h2
          simp [alookup] at h2
    · intro e he
      simp only at he
      have := hE e he
      simp only [List.length_append, List.length_cons, List.length_nil]
      omega

/-! Traversal lemmas for `exec_go` and `sim_go`. -/

theorem exec_go_append_err {S : Type} (pools : List (PoolId × Pool S)) :
    ∀ (l1 : List HopSpec) (world : World S) (last : TokenId) (steps : List Step)
      (w1 : World S) (l2 : List HopSpec) (ew : EngineError × World S),
    exec_go pools world l1 last = .ok (steps, w1) →
    exec_go pools w1 l2 (chainLast last l1) = .error ew →
    exec_go pools world (l1 ++ l2) last = .error ew := by
  intro l1
  induction l1 with
  | nil =>
    intro world last steps w1 l2 ew h1 h2
    simp only [exec_go] at h1
    injection h1 with h
    injection h with hs hw
    subst hw
    simpa [chainLast] using h2
  | cons hop rest ih =>
    intro world last steps w1 l2 ew h1 h2
    obtain ⟨pid, f, t, a⟩ := hop
    simp only [chainLast] at h2
    simp only [List.cons_append, exec_go] at h1 ⊢
    by_cases hf : f = last
    · rw [if_pos hf] at h1 ⊢
      cases hsw : apply_swap pools world pid f t a with
      | error e => rw [hsw] at h1; simp at h1
      | ok pr =>
        obtain ⟨out, w'⟩ := pr
        rw [hsw] at h1
        dsimp only at h1 ⊢
        cases hrec : exec_go pools w' rest t with
        | error e => rw [hrec] at h1; simp at h1
        | ok pr2 =>
          obtain ⟨steps', w''⟩ := pr2
          rw [hrec] at h1
          dsimp only at h1
          injection h1 with h
          injection h with hs hw
          subst hw
          have hfull := ih w' t steps' w'' l2 ew hrec h2
          rw [List.append_eq, hfull]
    · rw [if_neg hf] at h1
      simp at h1

theorem exec_go_realizes {S : Type} (pools : List (PoolId × Pool S)) :
    ∀ (hops : List HopSpec) (world : World S) (last : TokenId) (steps : List Step)
      (w' : World S),
    exec_go pools world hops last = .ok (steps, w') →
    steps.map stepSpec = hops ∧ stepsRealize pools world hops steps w' := by
  intro hops
  induction hops with
  | nil =>
    intro world last steps w' h
    simp only [exec_go] at h
    injection h with h
    injection h with hs hw
    subst hw
    rw [← hs]
    exact ⟨rfl, rfl⟩
  | cons hop rest ih =>
    intro world last steps w' h
    obtain ⟨pid, f, t, a⟩ := hop
    simp only [exec_go] at h
    by_cases hf : f = last
    · rw [if_pos hf] at h
      cases hsw : apply_swap pools world pid f t a with
      | error e => rw [hsw] at h; simp at h
      | ok pr =>
        obtain ⟨out, w1⟩ := pr
        rw [hsw] at h
        dsimp only at h
        cases hrec : exec_go pools w1 rest t with
        | error e => rw [hrec] at h; simp at h
        | ok pr2 =>
          obtain ⟨steps', w''⟩ := pr2
          rw [hrec] at h
          dsimp only at h
          injection h with h
          injection h with hs hw
          subst hw
          obtain ⟨ihm, ihr⟩ := ih w1 t steps' w'' hrec
          rw [← hs]
          constructor
          · simp [stepSpec, ihm]
          · exact ⟨w1, hsw, ihr⟩
    · rw [if_neg hf] at h
      simp at h

theorem sim_go_ok {S : Type} (pools : List (PoolId × Pool S)) (world : World S) :
    ∀ (hops : List Hop) (scratch : List (PoolId × S)) (last : TokenId) (amt : Nat),
    simChainOk last hops = true →
    (∀ h ∈ hops, (alookup h.1 pools).isSome = true ∧
      (alookup h.1 world.pool_states).isSome = true) →
    ∃ steps, sim_go pools world scratch hops last amt = .ok (steps, world) := by
  intro hops
  induction hops with
  | nil => intro scratch last amt _ _; exact ⟨[], rfl⟩
  | cons hop rest ih =>
    intro scratch last amt hchain hpresent
    obtain ⟨pid, f, t⟩ := hop
    simp only [simChainOk, Bool.and_eq_true, decide_eq_true_eq] at hchain
    obtain ⟨hf, hchain'⟩ := hchain
    have hpres' : ∀ h ∈ rest, (alookup h.1 pools).isSome = true ∧
        (alookup h.1 world.pool_states).isSome = true :=
      fun h hm => hpresent h (List.mem_cons_of_mem _ hm)
    obtain ⟨hpoolsome, hstsome⟩ := hpresent (pid, f, t) (List.mem_cons_self _ _)
    simp only [sim_go, if_pos hf]
    by_cases hamt : amt = 0
    · rw [if_pos hamt]
      obtain ⟨steps, hrec⟩ := ih scratch t 0 hchain' hpres'
      rw [hrec]
      exact ⟨⟨pid, f, t, amt, 0⟩ :: steps, rfl⟩
    · rw [if_neg hamt]
      obtain ⟨pool, hpool⟩ := Option.isSome_iff_exists.mp hpoolsome
      obtain ⟨st0, hst0⟩ := Option.isSome_iff_exists.mp hstsome
      dsimp only at hpool hst0
      rw [hpool]
      cases hscr : alookup pid scratch with
      | some st =>
        dsimp only
        obtain ⟨steps, hrec⟩ :=
          ih (ainsert pid (pool.swap st f t amt).2 scratch) t (pool.swap st f t amt).1
            hchain' hpres'
        rw [hrec]
        exact ⟨⟨pid, f, t, amt, (pool.swap st f t amt).1⟩ :: steps, rfl⟩
      | none =>
        rw [hst0]
        dsimp only
        obtain ⟨steps, hrec⟩ :=
          ih (ainsert pid (pool.swap st0 f t amt).2 scratch) t (pool.swap st0 f t amt).1
            hchain' hpres'
        rw [hrec]
        exact ⟨⟨pid, f, t, amt, (pool.swap st0 f t amt).1⟩ :: steps, rfl⟩

/-! Evaluation lemmas for the three control-flow outcomes of `apply_swap`. -/

theorem apply_swap_zero {S : Type} {pools : List (PoolId × Pool S)} {world : World S}
    {pid : PoolId} {pool : Pool S} (from_ to_ : TokenId) (amt_in : Nat)
    (hpool : alookup pid pools = some pool) (hb : holdingGet world from_ = 0) :
    apply_swap pools world pid from_ to_ amt_in =
      .ok (0, { world with holdings := entryOrDefault world.holdings from_ }) := by
  simp only [holdingGet] at hb
  simp only [apply_swap, hpool]
  rw [alookup_entryOrDefault_self]
  simp [hb]

theorem apply_swap_ok_eval {S : Type} {pools : List (PoolId × Pool S)} {world : World S}
    {pid : PoolId} {pool : Pool S} {st : S} {b : Nat} (from_ to_ : TokenId) (amt_in : Nat)
    (hpool : alookup pid pools = some pool) (hb : holdingGet world from_ = b)
    (hbne : b ≠ 0) (hst : alookup pid world.pool_states = some st) :
    apply_swap pools world pid from_ to_ amt_in =
      .ok ((pool.swap st from_ to_ (min b amt_in)).1,
        ⟨ainsert to_
            (((alookup to_ (entryOrDefault
                (ainsert from_ (b - min b amt_in) (entryOrDefault world.holdings from_))
                to_)).getD 0 +
              (pool.swap st from_ to_ (min b amt_in)).1) % (2 ^ 256))
            (entryOrDefault
              (ainsert from_ (b - min b amt_in) (entryOrDefault world.holdings from_)) to_),
          ainsert pid (pool.swap st from_ to_ (min b amt_in)).2 world.pool_states⟩) := by
  simp only [holdingGet] at hb
  simp only [apply_swap, hpool]
  rw [alookup_entryOrDefault_self]
  simp only [Option.getD_some, hb]
  rw [if_neg hbne]
  simp only [hst]

theorem apply_swap_missing_state_eval {S : Type} {pools : List (PoolId × Pool S)}
    {world : World S} {pid : PoolId} {pool : Pool S} {b : Nat} (from_ to_ : TokenId)
    (amt_in : Nat) (hpool : alookup pid pools = some pool)
    (hb : holdingGet world from_ = b) (hbne : b ≠ 0)
    (hst : alookup pid world.pool_states = none) :
    apply_swap pools world pid from_ to_ amt_in =
      .error (.missingPoolState,
        ⟨ainsert from_ (b - min b amt_in) (entryOrDefault world.holdings from_),
          world.pool_states⟩) := by
  simp only [holdingGet] at hb
  simp only [apply_swap, hpool]
  rw [alookup_entryOrDefault_self]
  simp only [Option.getD_some, hb]
  rw [if_neg hbne]
  simp only [hst]

theorem apply_swap_missing_impl {S : Type} {pools : List (PoolId × Pool S)}
    (world : World S) (pid : PoolId) (from_ to_ : TokenId) (amt_in : Nat)
    (hpool : alookup pid pools = none) :
    apply_swap pools world pid from_ to_ amt_in = .error (.missingPoolImpl, world) := by
  simp only [apply_swap, hpool]

theorem holdingGet_entryOrDefault_self (m : List (TokenId × Nat)) (t : TokenId) :
    (alookup t (entryOrDefault m t)).getD 0 = (alookup t m).getD 0 := by
  rw [alookup_entryOrDefault_self]
  rfl

theorem holdingGet_credit_other {m : List (TokenId × Nat)} {from_ to_ : TokenId} {v : Nat}
    (x : Nat) (hne : from_ ≠ to_) (h : alookup from_ m = some v) :
    (alookup from_ (ainsert to_ x (entryOrDefault m to_))).getD 0 = v := by
  rw [alookup_ainsert_ne _ _ hne, alookup_entryOrDefault_of_some to_ h]
  rfl

/-! The claims. -/

/-- C2: for every `applySwap` call whose pool implementation and pool-state
entry are present and whose `from` differs from `to`, the call succeeds, the
amount debited from `from` equals `min(pre-call balance, amountIn)` (hence
never exceeds the pre-call balance), and the post-call `from`-balance is the
pre-call balance minus the debit. -/
theorem c2_apply_swap_debit_capped {S : Type} (pools : List (PoolId × Pool S))
    (world : World S) (pid : PoolId) (pool : Pool S) (st : S) (from_ to_ : TokenId)
    (amt_in : Nat) (hpool : alookup pid pools = some pool)
    (hst : alookup pid world.pool_states = some st) (hne : from_ ≠ to_) :
    ∃ out w', apply_swap pools world pid from_ to_ amt_in = .ok (out, w') ∧
      min (holdingGet world from_) amt_in ≤ holdingGet world from_ ∧
      holdingGet w' from_ = holdingGet world from_ - min (holdingGet world from_) amt_in ∧
      holdingGet world from_ - holdingGet w' from_ = min (holdingGet world from_) amt_in := by
  by_cases h0 : holdingGet world from_ = 0
  · refine ⟨0, _, apply_swap_zero from_ to_ amt_in hpool h0, ?_, ?_, ?_⟩
    · rw [h0]; simp
    · simp only [holdingGet, holdingGet_entryOrDefault_self]
      simp only [holdingGet] at h0
      rw [h0]
      simp
    · simp only [holdingGet, holdingGet_entryOrDefault_self]
      simp only [holdingGet] at h0
      rw [h0]
      simp
  · refine ⟨_, _, apply_swap_ok_eval from_ to_ amt_in hpool rfl h0 hst,
      Nat.min_le_left _ _, ?_, ?_⟩
    · simp only [holdingGet]
      exact holdingGet_credit_other _ hne (alookup_ainsert_self _ _ _)
    · simp only [holdingGet]
      rw [holdingGet_credit_other _ hne (alookup_ainsert_self _ _ _)]
      exact Nat.sub_sub_self (Nat.min_le_left _ _)

/-- C2 witness: the single-hop scenario of the `src/engine.rs` tests. -/
theorem c2_witness :
    ∃ out w', apply_swap exPools exWorld 10 1 2 250000 = .ok (out, w') ∧
      min (holdingGet exWorld 1) 250000 ≤ holdingGet exWorld 1 ∧
      holdingGet w' 1 = holdingGet exWorld 1 - min (holdingGet exWorld 1) 250000 ∧
      holdingGet exWorld 1 - holdingGet w' 1 = min (holdingGet exWorld 1) 250000 :=
  c2_apply_swap_debit_capped exPools exWorld 10 (feePool 10 100) () 1 2 250000
    rfl rfl (by decide)

/-- C3 counterexample: an `applySwap` call that references pool `10`, which
has no pool-state entry, yet returns `Except.ok 0` (because the `from`-asset
balance is zero the call short-circuits before the pool-state lookup), so the
claim that every such call fails with the missing-state error is false. -/
theorem c3_counterexample :
    alookup 10 exWorldEmpty.pool_states = none ∧
    apply_swap exPools exWorldEmpty 10 1 2 5 = .ok (0, ⟨[(1, 0)], []⟩) :=
  ⟨rfl, rfl⟩

/-- C3 (amended): for every `applySwap` call whose pool implementation is
present and whose `from`-asset pre-call balance is nonzero, referencing a
pool with no pool-state entry in the `World` fails fatally with the
missing-state error; the absent entry is never silently defaulted. -/
theorem c3_missing_state_fatal {S : Type} (pools : List (PoolId × Pool S))
    (world : World S) (pid : PoolId) (pool : Pool S) (from_ to_ : TokenId) (amt_in : Nat)
    (hpool : alookup pid pools = some pool) (hb : holdingGet world from_ ≠ 0)
    (hst : alookup pid world.pool_states = none) :
    ∃ w', apply_swap pools world pid from_ to_ amt_in = .error (.missingPoolState, w') :=
  ⟨_, apply_swap_missing_state_eval from_ to_ amt_in hpool rfl hb hst⟩

/-- C3 witness: nonzero balance and a missing pool state do abort. -/
theorem c3_witness :
    ∃ w', apply_swap exPools (⟨[(1, 5)], []⟩ : World Unit) 10 1 2 3 =
      .error (.missingPoolState, w') :=
  c3_missing_state_fatal exPools ⟨[(1, 5)], []⟩ 10 (feePool 10 100) 1 2 3
    rfl (by decide) rfl

/-- C4: when the held balance of the `from`-asset is zero (including the case
of an asset never credited, which reads as zero), `applySwap` returns zero and
leaves the world untouched except for materializing the zero entry; the
conclusion holds for every pool implementation with any pricing function, so
the pricing function is never consulted. -/
theorem c4_zero_balance_short_circuit {S : Type} (pools : List (PoolId × Pool S))
    (world : World S) (pid : PoolId) (pool : Pool S) (from_ to_ : TokenId) (amt_in : Nat)
    (hpool : alookup pid pools = some pool) (hb : holdingGet world from_ = 0) :
    apply_swap pools world pid from_ to_ amt_in =
      .ok (0, { world with holdings := entryOrDefault world.holdings from_ }) :=
  apply_swap_zero from_ to_ amt_in hpool hb

/-- C4 witness: asset `1` was never credited, so the swap returns zero. -/
theorem c4_witness :
    apply_swap exPools (⟨[(2, 7)], []⟩ : World Unit) 10 1 2 5 =
      .ok (0, ⟨[(2, 7), (1, 0)], []⟩) :=
  c4_zero_balance_short_circuit exPools ⟨[(2, 7)], []⟩ 10 (feePool 10 100) 1 2 5
    rfl (by decide)

/-- C9: `applySwap` is not atomic on the missing-pool-state error: with the
implementation present, a nonzero `from`-balance and no pool-state entry, the
call aborts only after the `from`-asset has been debited by
`min(balance, amountIn)` and the debit is not rolled back (the pool states are
untouched); with the pool identifier absent from the implementation
collection, the call aborts with the `World` completely unchanged. -/
theorem c9_apply_swap_error_atomicity {S : Type} (pools : List (PoolId × Pool S))
    (world : World S) (pid : PoolId) (from_ to_ : TokenId) (amt_in : Nat) :
    (alookup pid pools = none →
      apply_swap pools world pid from_ to_ amt_in = .error (.missingPoolImpl, world)) ∧
    (∀ pool, alookup pid pools = some pool → holdingGet world from_ ≠ 0 →
      alookup pid world.pool_states = none →
      ∃ w', apply_swap pools world pid from_ to_ amt_in = .error (.missingPoolState, w') ∧
        holdingGet w' from_ =
          holdingGet world from_ - min (holdingGet world from_) amt_in ∧
        w'.pool_states = world.pool_states) := by
  constructor
  · intro h
    exact apply_swap_missing_impl world pid from_ to_ amt_in h
  · intro pool hpool hb hst
    refine ⟨_, apply_swap_missing_state_eval from_ to_ amt_in hpool rfl hb hst, ?_, rfl⟩
    simp only [holdingGet]
    rw [alookup_ainsert_self]
    rfl

/-- C9 witness: a missing implementation leaves the world untouched, while a
missing pool state aborts with the debit already applied. -/
theorem c9_witness :
    apply_swap exPools (⟨[(1, 5)], []⟩ : World Unit) 99 1 2 3 =
      .error (.missingPoolImpl, ⟨[(1, 5)], []⟩) ∧
    (∃ w', apply_swap exPools (⟨[(1, 5)], []⟩ : World Unit) 10 1 2 3 =
        .error (.missingPoolState, w') ∧
      holdingGet w' 1 = 5 - min 5 3 ∧
      w'.pool_states = []) :=
  ⟨(c9_apply_swap_error_atomicity exPools ⟨[(1, 5)], []⟩ 99 1 2 3).1 rfl,
    (c9_apply_swap_error_atomicity exPools ⟨[(1, 5)], []⟩ 10 1 2 3).2
      (feePool 10 100) rfl (by decide) rfl⟩

/-- C1: `simulateChained` (modelled from the spec, §4.3) on any non-empty,
continuity-valid route whose pools all have implementations and seeded pool
states returns a Path of realized Steps and hands back `world` itself — its
`holdings` and `pool_states` are identical by value to their pre-call state,
because pricing only ever runs against the per-call scratch copies of pool
state, never against `world`. -/
theorem c1_simulate_chained_world_unchanged {S : Type} (pools : List (PoolId × Pool S))
    (world : World S) (p0 : PoolId) (f0 t0 : TokenId) (hs : List Hop)
    (firstInputAmount : Nat) (capFirstHop : Bool)
    (hchain : simChainOk f0 ((p0, f0, t0) :: hs) = true)
    (hpresent : ∀ h ∈ (p0, f0, t0) :: hs, (alookup h.1 pools).isSome = true ∧
      (alookup h.1 world.pool_states).isSome = true) :
    ∃ steps, simulate_chained pools world ((p0, f0, t0) :: hs) firstInputAmount capFirstHop =
      .ok (⟨steps⟩, world) := by
  obtain ⟨steps, hgo⟩ := sim_go_ok pools world ((p0, f0, t0) :: hs) [] f0
    (if capFirstHop then min firstInputAmount ((alookup f0 world.holdings).getD 0)
     else firstInputAmount)
    hchain hpresent
  refine ⟨steps, ?_⟩
  simp only [simulate_chained]
  rw [hgo]

/-- C1 witness: the chained two-hop simulation of §8 of the specification
returns a Path and leaves the world value untouched. -/
theorem c1_witness :
    ∃ steps, simulate_chained exPools exWorld [(10, 1, 2), (11, 2, 3)] 250000 true =
      .ok (⟨steps⟩, exWorld) :=
  c1_simulate_chained_world_unchanged exPools exWorld 10 1 2 [(11, 2, 3)] 250000 true
    (by decide) (by decide)

/-- C5: `executePath` fails with the path-discontinuity error naming the
expected asset at the first hop whose declared input asset differs from the
previous hop's declared output asset; the hops before it have already
executed and the offending hop has mutated nothing (the error carries exactly
the world the prefix produced).  The first hop's own input asset seeds the
continuity check, so the first hop is unconstrained, and the check only ever
reads the declared hop specification, never a realized amount. -/
theorem c5_path_discontinuity {S : Type} (pools : List (PoolId × Pool S))
    (world : World S) (p0 : HopSpec) (pt : List HopSpec) (bad : HopSpec)
    (rest : List HopSpec) (steps : List Step) (w1 : World S)
    (hpre : exec_go pools world (p0 :: pt) (hopFrom p0) = .ok (steps, w1))
    (hbad : hopFrom bad ≠ chainLast (hopFrom p0) (p0 :: pt)) :
    execute_path pools world ((p0 :: pt) ++ bad :: rest) =
      .error (.pathDiscontinuity (chainLast (hopFrom p0) (p0 :: pt)), w1) := by
  obtain ⟨bpid, bf, bt, ba⟩ := bad
  have hbad' : bf ≠ chainLast (hopFrom p0) (p0 :: pt) := hbad
  have herr : exec_go pools w1 ((bpid, bf, bt, ba) :: rest)
      (chainLast (hopFrom p0) (p0 :: pt)) =
      .error (.pathDiscontinuity (chainLast (hopFrom p0) (p0 :: pt)), w1) := by
    simp only [exec_go]
    rw [if_neg hbad']
  have hfull := exec_go_append_err pools (p0 :: pt) world (hopFrom p0) steps w1
    ((bpid, bf, bt, ba) :: rest) _ hpre herr
  rw [List.cons_append] at hfull
  simp only [execute_path, List.cons_append]
  rw [hfull]

/-- C5 witness: the second hop declares input asset `3` while the first hop
emits asset `2`; the call aborts with the expected asset `2` and the world as
left by the first hop. -/
theorem c5_witness :
    execute_path exPools exWorld [(10, 1, 2, 250000), (11, 3, 4, 5)] =
      .error (.pathDiscontinuity 2,
        ⟨[(1, 750000), (2, 247500)], [(10, ()), (11, ())]⟩) :=
  c5_path_discontinuity exPools exWorld (10, 1, 2, 250000) [] (11, 3, 4, 5) []
    [⟨10, 1, 2, 250000, 247500⟩] ⟨[(1, 750000), (2, 247500)], [(10, ()), (11, ())]⟩
    (by decide) (by decide)

/-- C6: every hop list accepted by `executePath` yields exactly one Step per
hop, in order, whose recorded pool, input asset, output asset and input
amount are the caller's requested specification (the requested amount, even
when the realized swap was capped by the held balance), and whose recorded
output amount is exactly the value `applySwap` returned for that hop. -/
theorem c6_execute_path_trace {S : Type} (pools : List (PoolId × Pool S))
    (world : World S) (spec : List HopSpec) (path : Path) (w' : World S)
    (h : execute_path pools world spec = .ok (path, w')) :
    path.steps.map stepSpec = spec ∧ stepsRealize pools world spec path.steps w' := by
  cases spec with
  | nil => simp [execute_path] at h
  | cons first rest =>
    simp only [execute_path] at h
    cases hgo : exec_go pools world (first :: rest) (hopFrom first) with
    | error e => rw [hgo] at h; simp at h
    | ok pr =>
      obtain ⟨steps, w''⟩ := pr
      rw [hgo] at h
      dsimp only at h
      injection h with h
      injection h with hp hw
      subst hw
      obtain ⟨hm, hr⟩ := exec_go_realizes pools (first :: rest) world (hopFrom first)
        steps w'' hgo
      rw [← hp]
      exact ⟨hm, hr⟩

/-- C6 witness: the two-hop execution trace of the `src/engine.rs` tests,
with the second hop's requested 200,000 recorded as its step input. -/
theorem c6_witness :
    ([⟨10, 1, 2, 250000, 247500⟩, ⟨11, 2, 3, 200000, 196000⟩] : List Step).map stepSpec =
      [(10, 1, 2, 250000), (11, 2, 3, 200000)] ∧
    stepsRealize exPools exWorld [(10, 1, 2, 250000), (11, 2, 3, 200000)]
      [⟨10, 1, 2, 250000, 247500⟩, ⟨11, 2, 3, 200000, 196000⟩]
      ⟨[(1, 750000), (2, 47500), (3, 196000)], [(10, ()), (11, ())]⟩ :=
  c6_execute_path_trace exPools exWorld [(10, 1, 2, 250000), (11, 2, 3, 200000)]
    ⟨[⟨10, 1, 2, 250000, 247500⟩, ⟨11, 2, 3, 200000, 196000⟩]⟩
    ⟨[(1, 750000), (2, 47500), (3, 196000)], [(10, ()), (11, ())]⟩ (by decide)

/-! Edge-insertion lemmas and the graph claims. -/

theorem find_edge_isSome_of_mem {g : AMMGraph} {a b : Nat} (h : (a, b) ∈ g.edges) :
    (find_edge g a b).isSome = true := by
  cases hfe : find_edge g a b with
  | none => exact absurd h ((find_edge_none_iff g a b).mp hfe)
  | some i => rfl

theorem add_edge_unique_edges_of_not_mem {g : AMMGraph} {a b : Nat}
    (h : (a, b) ∉ g.edges) : (add_edge_unique g a b).edges = g.edges ++ [(a, b)] := by
  rw [add_edge_unique_of_not_mem h]

theorem add_edge_unique_edges_of_mem {g : AMMGraph} {a b : Nat}
    (h : (a, b) ∈ g.edges) : (add_edge_unique g a b).edges = g.edges := by
  rw [add_edge_unique_of_mem h]

theorem not_mem_edges_of_token_pool {g : AMMGraph} (hE : WfE g)
    {t : TokenId} {p : PoolId} {tix pix : Nat}
    (ht : alookup t g.token_idx = some tix ∨ g.nodes.length ≤ tix)
    (hp : alookup p g.pool_idx = some pix ∨ g.nodes.length ≤ pix)
    (hedge : tokenPoolEdge g t p = false) : (tix, pix) ∉ g.edges := by
  intro hmem
  have hbounds := hE _ hmem
  rcases ht with htS | htF
  · rcases hp with hpS | hpF
    · simp only [tokenPoolEdge, htS, hpS] at hedge
      have hne : find_edge g tix pix ≠ none :=
        fun hno => (find_edge_none_iff g tix pix).mp hno hmem
      cases hfe : find_edge g tix pix with
      | none => exact hne hfe
      | some i => rw [hfe] at hedge; simp at hedge
    · exact absurd hbounds.2 (Nat.not_lt.mpr hpF)
  · exact absurd hbounds.1 (Nat.not_lt.mpr htF)

theorem not_mem_edges_of_pool_token {g : AMMGraph} (hE : WfE g)
    {p : PoolId} {t : TokenId} {pix tix : Nat}
    (hp : alookup p g.pool_idx = some pix ∨ g.nodes.length ≤ pix)
    (ht : alookup t g.token_idx = some tix ∨ g.nodes.length ≤ tix)
    (hedge : poolTokenEdge g p t = false) : (pix, tix) ∉ g.edges := by
  intro hmem
  have hbounds := hE _ hmem
  rcases hp with hpS | hpF
  · rcases ht with htS | htF
    · simp only [poolTokenEdge, htS, hpS] at hedge
      have hne : find_edge g pix tix ≠ none :=
        fun hno => (find_edge_none_iff g pix tix).mp hno hmem
      cases hfe : find_edge g pix tix with
      | none => exact hne hfe
      | some i => rw [hfe] at hedge; simp at hedge
    · exact absurd hbounds.2 (Nat.not_lt.mpr htF)
  · exact absurd hbounds.1 (Nat.not_lt.mpr hpF)

theorem add_edge_unique_nodup {g : AMMGraph} (h : g.edges.Nodup) (a b : Nat) :
    (add_edge_unique g a b).edges.Nodup := by
  by_cases hm : (a, b) ∈ g.edges
  · rw [add_edge_unique_edges_of_mem hm]; exact h
  · rw [add_edge_unique_edges_of_not_mem hm]
    rw [List.nodup_append]
    refine ⟨h, List.nodup_singleton _, ?_⟩
    intro x hx hx2
    rw [List.mem_singleton] at hx2
    subst hx2
    exact hm hx

theorem applyOp_dedup_nodup {g : AMMGraph} (h : g.edges.Nodup) {op : GraphOp}
    (hop : opDedup op = true) : (applyOp g op).edges.Nodup := by
  cases op with
  | opAddToken t => rw [applyOp, add_token_edges]; exact h
  | opAddPool p => rw [applyOp, add_pool_edges]; exact h
  | opConnectTokenToPool t p => simp [opDedup] at hop
  | opConnectPoolToToken p t => simp [opDedup] at hop
  | opConnectBidirectionalPair p a b =>
    simp only [applyOp, connect_bidirectional_pair]
    apply add_edge_unique_nodup
    apply add_edge_unique_nodup
    apply add_edge_unique_nodup
    apply add_edge_unique_nodup
    rw [add_pool_edges, add_token_edges, add_token_edges]
    exact h

theorem foldl_applyOp_nodup : ∀ (ops : List GraphOp) (g : AMMGraph), g.edges.Nodup →
    ops.all opDedup = true → (List.foldl applyOp g ops).edges.Nodup := by
  intro ops
  induction ops with
  | nil => intro g h _; simpa using h
  | cons op rest ih =>
    intro g h hall
    simp only [List.all_cons, Bool.and_eq_true] at hall
    simp only [List.foldl_cons]
    exact ih (applyOp g op) (applyOp_dedup_nodup h hall.1) hall.2

/-- C7 counterexample: two identical `connect_token_to_pool` calls (the raw
`linkAssetToPool` primitive named by the claim) leave two parallel edges for
the same ordered (source, target) pair — the duplicate insert is neither a
no-op nor an error, so the claimed invariant fails for graphs built with the
raw link primitives. -/
theorem c7_counterexample :
    (buildGraph [.opConnectTokenToPool 1 10, .opConnectTokenToPool 1 10]).edges =
      [(0, 1), (0, 1)] ∧
    ¬(buildGraph [.opConnectTokenToPool 1 10, .opConnectTokenToPool 1 10]).edges.Nodup :=
  ⟨rfl, by decide⟩

/-- C7 (amended): for every graph built by any sequence of `addAsset`,
`addPool` and `linkBidirectionalPair` — the insertion operations that only go
through the deduplicating edge insert, excluding the raw primitives
`linkAssetToPool`/`linkPoolToAsset`, which deliberately append duplicate
edges — at most one edge exists per ordered (source, target) pair, and
inserting an edge that is already present is a no-op, not an error. -/
theorem c7_dedup_graphs_nodup (ops : List GraphOp) (hops : ops.all opDedup = true) :
    (buildGraph ops).edges.Nodup ∧
    ∀ a b, (a, b) ∈ (buildGraph ops).edges →
      add_edge_unique (buildGraph ops) a b = buildGraph ops := by
  constructor
  · exact foldl_applyOp_nodup ops AMMGraph.new (by simp [AMMGraph.new]) hops
  · intro a b hmem
    exact add_edge_unique_of_mem hmem

/-- C7 witness: a duplicate-free build through the deduplicating operations. -/
theorem c7_witness :
    (buildGraph [.opAddToken 1, .opAddPool 10,
        .opConnectBidirectionalPair 70 7 8, .opConnectBidirectionalPair 70 7 8]).edges.Nodup ∧
    ∀ a b, (a, b) ∈ (buildGraph [.opAddToken 1, .opAddPool 10,
        .opConnectBidirectionalPair 70 7 8, .opConnectBidirectionalPair 70 7 8]).edges →
      add_edge_unique (buildGraph [.opAddToken 1, .opAddPool 10,
        .opConnectBidirectionalPair 70 7 8, .opConnectBidirectionalPair 70 7 8]) a b =
        buildGraph [.opAddToken 1, .opAddPool 10,
          .opConnectBidirectionalPair 70 7 8, .opConnectBidirectionalPair 70 7 8] :=
  c7_dedup_graphs_nodup
    [.opAddToken 1, .opAddPool 10,
      .opConnectBidirectionalPair 70 7 8, .opConnectBidirectionalPair 70 7 8]
    (by decide)

/-- C10: `poolsAccepting` on an asset identifier never added to the graph
(and `assetsEmittedBy` on a never-added pool identifier) aborts with the
index-lookup failure instead of returning an empty sequence, while an
identifier that was added but has no outgoing edges yields the empty
sequence. -/
theorem c10_query_lookup_failure (g : AMMGraph) (t : TokenId) (p : PoolId)
    (tix pix : Nat) :
    (alookup t g.token_idx = none → pools_accepting g t = .error .indexNotFound) ∧
    (alookup p g.pool_idx = none → tokens_emitted_by g p = .error .indexNotFound) ∧
    (alookup t g.token_idx = some tix → (∀ e ∈ g.edges, e.1 ≠ tix) →
      pools_accepting g t = .ok []) ∧
    (alookup p g.pool_idx = some pix → (∀ e ∈ g.edges, e.1 ≠ pix) →
      tokens_emitted_by g p = .ok []) := by
  refine ⟨?_, ?_, ?_, ?_⟩
  · intro h; simp [pools_accepting, h]
  · intro h; simp [tokens_emitted_by, h]
  · intro h hout
    have hfil : g.edges.filter (fun e => decide (e.1 = tix)) = [] := by
      rw [List.filter_eq_nil_iff]
      intro e he
      simp [hout e he]
    simp [pools_accepting, h, outNeighbors, hfil]
  · intro h hout
    have hfil : g.edges.filter (fun e => decide (e.1 = pix)) = [] := by
      rw [List.filter_eq_nil_iff]
      intro e he
      simp [hout e he]
    simp [tokens_emitted_by, h, outNeighbors, hfil]

/-- C10 witness: token `2` and pool `20` were never added to the one-edge
graph, so the queries abort; token `1` of the single-edge graph has the edge,
and pool `10` was added with no outgoing edges, yielding the empty sequence. -/
theorem c10_witness :
    (pools_accepting (connect_token_to_pool AMMGraph.new 1 10) 2 =
      .error .indexNotFound) ∧
    (tokens_emitted_by (connect_token_to_pool AMMGraph.new 1 10) 20 =
      .error .indexNotFound) ∧
    (tokens_emitted_by (connect_token_to_pool AMMGraph.new 1 10) 10 = .ok []) :=
  ⟨(c10_query_lookup_failure (connect_token_to_pool AMMGraph.new 1 10) 2 20 0 1).1 rfl,
    (c10_query_lookup_failure (connect_token_to_pool AMMGraph.new 1 10) 2 20 0 1).2.1 rfl,
    (c10_query_lookup_failure (connect_token_to_pool AMMGraph.new 1 10) 2 10 0 1).2.2.2
      rfl (by decide)⟩

/-- C8: on a well-formed-index graph without the four edges in question, one
`linkBidirectionalPair(p, a, b)` call (for two distinct assets) establishes
exactly the four edges a→p, p→b, b→p, p→a — the edge count grows by exactly
four — and a second call with identical arguments is the identity, leaving
the edge count unchanged. -/
theorem c8_connect_bidirectional_pair_four_edges (g : AMMGraph) (p : PoolId)
    (a b : TokenId) (hwf : wfIdx g = true) (hab : a ≠ b)
    (h1 : tokenPoolEdge g a p = false) (h2 : poolTokenEdge g p b = false)
    (h3 : tokenPoolEdge g b p = false) (h4 : poolTokenEdge g p a = false) :
    tokenPoolEdge (connect_bidirectional_pair g p a b) a p = true ∧
    poolTokenEdge (connect_bidirectional_pair g p a b) p b = true ∧
    tokenPoolEdge (connect_bidirectional_pair g p a b) b p = true ∧
    poolTokenEdge (connect_bidirectional_pair g p a b) p a = true ∧
    (connect_bidirectional_pair g p a b).edges.length = g.edges.length + 4 ∧
    connect_bidirectional_pair (connect_bidirectional_pair g p a b) p a b =
      connect_bidirectional_pair g p a b := by
  obtain ⟨hT, hP, hE⟩ := wfIdx_elim hwf
  rcases hA : add_token g a with ⟨aix, g1⟩
  rcases hB : add_token g1 b with ⟨bix, g2⟩
  rcases hC : add_pool g2 p with ⟨pix, g3⟩
  -- well-formedness along the chain of node insertions
  have hwf1 := add_token_wf hT hP hE a
  rw [hA] at hwf1
  obtain ⟨hT1, hP1, hE1⟩ := hwf1
  have hwf2 := add_token_wf hT1 hP1 hE1 b
  rw [hB] at hwf2
  obtain ⟨hT2, hP2, hE2⟩ := hwf2
  -- edges are untouched by node insertion
  have hEd1 : g1.edges = g.edges := by have := add_token_edges g a; rw [hA] at this; exact this
  have hEd2 : g2.edges = g1.edges := by have := add_token_edges g1 b; rw [hB] at this; exact this
  have hEd3 : g3.edges = g2.edges := by have := add_pool_edges g2 p; rw [hC] at this; exact this
  have hEd : g3.edges = g.edges := by rw [hEd3, hEd2, hEd1]
  -- node lengths only grow
  have hL1 : g.nodes.length ≤ g1.nodes.length := by
    have := add_token_nodes_le g a; rw [hA] at this; exact this
  have hL2 : g1.nodes.length ≤ g2.nodes.length := by
    have := add_token_nodes_le g1 b; rw [hB] at this; exact this
  -- node kinds at the three returned indices, transported to g3
  have haK1 : nget g1.nodes aix = some (NodeKind.Token a) := by
    have := add_token_kind hT a; rw [hA] at this; exact this
  have haK2 : nget g2.nodes aix = some (NodeKind.Token a) := by
    have := add_token_nget g1 b (nget_lt_length haK1); rw [hB] at this; rw [this]; exact haK1
  have haK3 : nget g3.nodes aix = some (NodeKind.Token a) := by
    have := add_pool_nget g2 p (nget_lt_length haK2); rw [hC] at this; rw [this]; exact haK2
  have hbK2 : nget g2.nodes bix = some (NodeKind.Token b) := by
    have := add_token_kind hT1 b; rw [hB] at this; exact this
  have hbK3 : nget g3.nodes bix = some (NodeKind.Token b) := by
    have := add_pool_nget g2 p (nget_lt_length hbK2); rw [hC] at this; rw [this]; exact hbK2
  have hpK3 : nget g3.nodes pix = some (NodeKind.Pool p) := by
    have := add_pool_kind hP2 p; rw [hC] at this; exact this
  -- distinctness of the three node indices
  have habx : aix ≠ bix := by
    intro he
    rw [he, hbK3] at haK3
    injection haK3 with h'
    injection h' with h''
    exact hab h''.symm
  have hapx : aix ≠ pix := by
    intro he
    rw [he, hpK3] at haK3
    injection haK3 with h'
    injection h'
  have hbpx : bix ≠ pix := by
    intro he
    rw [he, hpK3] at hbK3
    injection hbK3 with h'
    injection h'
  -- index-map lookups in g3
  have haL1 : alookup a g1.token_idx = some aix := by
    have := add_token_lookup_self g a; rw [hA] at this; exact this
  have haL2 : alookup a g2.token_idx = some aix := by
    have := add_token_lookup_pres g1 b haL1; rw [hB] at this; exact this
  have hTi3 : g3.token_idx = g2.token_idx := by
    have := add_pool_token_idx g2 p; rw [hC] at this; exact this
  have haL3 : alookup a g3.token_idx = some aix := by rw [hTi3]; exact haL2
  have hbL2 : alookup b g2.token_idx = some bix := by
    have := add_token_lookup_self g1 b; rw [hB] at this; exact this
  have hbL3 : alookup b g3.token_idx = some bix := by rw [hTi3]; exact hbL2
  have hpL3 : alookup p g3.pool_idx = some pix := by
    have := add_pool_lookup_self g2 p; rw [hC] at this; exact this
  -- fresh-or-old characterization relative to the original graph
  have haFO : alookup a g.token_idx = some aix ∨ g.nodes.length ≤ aix := by
    have := add_token_fresh_or_old g a
    rw [hA] at this
    rcases this with h' | ⟨_, h'⟩
    · exact Or.inl h'
    · exact Or.inr (le_of_eq h'.symm)
  have hbFO : alookup b g.token_idx = some bix ∨ g.nodes.length ≤ bix := by
    have := add_token_fresh_or_old g1 b
    rw [hB] at this
    rcases this with h' | ⟨_, h'⟩
    · refine Or.inl ?_
      exact add_token_lookup_back g a (Ne.symm hab) (by rw [hA]; exact h')
    · exact Or.inr (le_trans hL1 (le_of_eq h'.symm))
  have hpFO : alookup p g.pool_idx = some pix ∨ g.nodes.length ≤ pix := by
    have := add_pool_fresh_or_old g2 p
    rw [hC] at this
    rcases this with h' | ⟨_, h'⟩
    · refine Or.inl ?_
      have hpi2 : g2.pool_idx = g1.pool_idx := by
        have := add_token_pool_idx g1 b; rw [hB] at this; exact this
      have hpi1 : g1.pool_idx = g.pool_idx := by
        have := add_token_pool_idx g a; rw [hA] at this; exact this
      rw [hpi2, hpi1] at h'
      exact h'
    · exact Or.inr (le_trans hL1 (le_trans hL2 (le_of_eq h'.symm)))
  -- the four edges are absent before insertion
  have hm1 : (aix, pix) ∉ g.edges := not_mem_edges_of_token_pool hE haFO hpFO h1
  have hm2 : (pix, bix) ∉ g.edges := not_mem_edges_of_pool_token hE hpFO hbFO h2
  have hm3 : (bix, pix) ∉ g.edges := not_mem_edges_of_token_pool hE hbFO hpFO h3
  have hm4 : (pix, aix) ∉ g.edges := not_mem_edges_of_pool_token hE hpFO haFO h4
  have hm1' : (aix, pix) ∉ g3.edges := by rw [hEd]; exact hm1
  -- the four deduplicating inserts each append their edge
  have he1 : (add_edge_unique g3 aix pix).edges = g3.edges ++ [(aix, pix)] :=
    add_edge_unique_edges_of_not_mem hm1'
  have hm2' : (pix, bix) ∉ (add_edge_unique g3 aix pix).edges := by
    rw [he1]
    intro hc
    rcases List.mem_append.mp hc with hc | hc
    · rw [hEd] at hc; exact hm2 hc
    · rw [List.mem_singleton] at hc
      injection hc with hx hy
      exact hapx hx.symm
  have he2 : (add_edge_unique (add_edge_unique g3 aix pix) pix bix).edges =
      (g3.edges ++ [(aix, pix)]) ++ [(pix, bix)] := by
    rw [add_edge_unique_edges_of_not_mem hm2', he1]
  have hm3' : (bix, pix) ∉ (add_edge_unique (add_edge_unique g3 aix pix) pix bix).edges := by
    rw [he2]
    intro hc
    rcases List.mem_append.mp hc with hc | hc
    · rcases List.mem_append.mp hc with hc | hc
      · rw [hEd] at hc; exact hm3 hc
      · rw [List.mem_singleton] at hc
        injection hc with hx hy
        exact habx hx.symm
    · rw [List.mem_singleton] at hc
      injection hc with hx hy
      exact hbpx hx
  have he3 : (add_edge_unique (add_edge_unique (add_edge_unique g3 aix pix) pix bix)
      bix pix).edges = ((g3.edges ++ [(aix, pix)]) ++ [(pix, bix)]) ++ [(bix, pix)] := by
    rw [add_edge_unique_edges_of_not_mem hm3', he2]
  have hm4' : (pix, aix) ∉ (add_edge_unique (add_edge_unique (add_edge_unique g3 aix pix)
      pix bix) bix pix).edges := by
    rw [he3]
    intro hc
    rcases List.mem_append.mp hc with hc | hc
    · rcases List.mem_append.mp hc with hc | hc
      · rcases List.mem_append.mp hc with hc | hc
        · rw [hEd] at hc; exact hm4 hc
        · rw [List.mem_singleton] at hc
          injection hc with hx hy
          exact hapx hx.symm
      · rw [List.mem_singleton] at hc
        injection hc with hx hy
        exact habx hy
    · rw [List.mem_singleton] at hc
      injection hc with hx hy
      exact hbpx hx.symm
  have he4 : (add_edge_unique (add_edge_unique (add_edge_unique (add_edge_unique g3
      aix pix) pix bix) bix pix) pix aix).edges =
      (((g3.edges ++ [(aix, pix)]) ++ [(pix, bix)]) ++ [(bix, pix)]) ++ [(pix, aix)] := by
    rw [add_edge_unique_edges_of_not_mem hm4', he3]
  -- the call itself, rewritten into the explicit chain
  have hcb : connect_bidirectional_pair g p a b =
      add_edge_unique (add_edge_unique (add_edge_unique (add_edge_unique g3 aix pix)
        pix bix) bix pix) pix aix := by
    simp only [connect_bidirectional_pair, hA, hB, hC]
  -- index maps and nodes of the result
  have ht7 : (add_edge_unique (add_edge_unique (add_edge_unique (add_edge_unique g3
      aix pix) pix bix) bix pix) pix aix).token_idx = g3.token_idx := by
    simp only [add_edge_unique_token_idx]
  have hp7 : (add_edge_unique (add_edge_unique (add_edge_unique (add_edge_unique g3
      aix pix) pix bix) bix pix) pix aix).pool_idx = g3.pool_idx := by
    simp only [add_edge_unique_pool_idx]
  -- membership of the four edges in the result
  have hin1 : (aix, pix) ∈ (add_edge_unique (add_edge_unique (add_edge_unique
      (add_edge_unique g3 aix pix) pix bix) bix pix) pix aix).edges := by
    rw [he4]; simp
  have hin2 : (pix, bix) ∈ (add_edge_unique (add_edge_unique (add_edge_unique
      (add_edge_unique g3 aix pix) pix bix) bix pix) pix aix).edges := by
    rw [he4]; simp
  have hin3 : (bix, pix) ∈ (add_edge_unique (add_edge_unique (add_edge_unique
      (add_edge_unique g3 aix pix) pix bix) bix pix) pix aix).edges := by
    rw [he4]; simp
  have hin4 : (pix, aix) ∈ (add_edge_unique (add_edge_unique (add_edge_unique
      (add_edge_unique g3 aix pix) pix bix) bix pix) pix aix).edges := by
    rw [he4]; simp
  refine ⟨?_, ?_, ?_, ?_, ?_, ?_⟩
  · rw [hcb]
    simp only [tokenPoolEdge, ht7, hp7, haL3, hpL3]
    exact find_edge_isSome_of_mem hin1
  · rw [hcb]
    simp only [poolTokenEdge, ht7, hp7, hbL3, hpL3]
    exact find_edge_isSome_of_mem hin2
  · rw [hcb]
    simp only [tokenPoolEdge, ht7, hp7, hbL3, hpL3]
    exact find_edge_isSome_of_mem hin3
  · rw [hcb]
    simp only [poolTokenEdge, ht7, hp7, haL3, hpL3]
    exact find_edge_isSome_of_mem hin4
  · rw [hcb, he4, hEd]
    simp [List.length_append]
  · rw [hcb]
    have hGa : alookup a (add_edge_unique (add_edge_unique (add_edge_unique
        (add_edge_unique g3 aix pix) pix bix) bix pix) pix aix).token_idx = some aix := by
      rw [ht7]; exact haL3
    have hGb : alookup b (add_edge_unique (add_edge_unique (add_edge_unique
        (add_edge_unique g3 aix pix) pix bix) bix pix) pix aix).token_idx = some bix := by
      rw [ht7]; exact hbL3
    have hGp : alookup p (add_edge_unique (add_edge_unique (add_edge_unique
        (add_edge_unique g3 aix pix) pix bix) bix pix) pix aix).pool_idx = some pix := by
      rw [hp7]; exact hpL3
    simp only [connect_bidirectional_pair, add_token_present hGa, add_token_present hGb,
      add_pool_present hGp, add_edge_unique_of_mem hin1, add_edge_unique_of_mem hin2,
      add_edge_unique_of_mem hin3, add_edge_unique_of_mem hin4]

/-- C8 witness: the two-token, one-pool configuration of the
`connect_bidirectional_pair_wires_both_directions_without_dupes` test, run
from the empty graph. -/
theorem c8_witness :
    tokenPoolEdge (connect_bidirectional_pair AMMGraph.new 70 7 8) 7 70 = true ∧
    poolTokenEdge (connect_bidirectional_pair AMMGraph.new 70 7 8) 70 8 = true ∧
    tokenPoolEdge (connect_bidirectional_pair AMMGraph.new 70 7 8) 8 70 = true ∧
    poolTokenEdge (connect_bidirectional_pair AMMGraph.new 70 7 8) 70 7 = true ∧
    (connect_bidirectional_pair AMMGraph.new 70 7 8).edges.length =
      AMMGraph.new.edges.length + 4 ∧
    connect_bidirectional_pair (connect_bidirectional_pair AMMGraph.new 70 7 8) 70 7 8 =
      connect_bidirectional_pair AMMGraph.new 70 7 8 :=
  c8_connect_bidirectional_pair_four_edges AMMGraph.new 70 7 8 (by decide) (by decide)
    (by decide) (by decide) (by decide) (by decide)

end Wayfinder
